import Mathlib

/-!
Verification development for the pacsi_google_stt repository.

The Python sources (src/main.py, src/V2.py, src/app_bar_version.py,
src/video.py) are shallowly embedded below: transcripts are `List Char`,
audio byte buffers are `List β`, fallible dispatching is rendered as an
explicit result structure, and the service / translation collaborators are
abstract function parameters.  The session-bridging and timestamp-correction
components described by the specification have no implementation in the four
source files; those two components are modelled from the specification text
and are marked as such in their doc comments.
-/

namespace PacsiStt

/-- Python `str.strip()` on a character list: drop leading and trailing
whitespace. -/
def trimChars (l : List Char) : List Char :=
  ((l.dropWhile Char.isWhitespace).reverse.dropWhile Char.isWhitespace).reverse

/-- Word character in the sense of the regex `\b` boundary (ASCII `\w`). -/
def isWordChar (c : Char) : Bool :=
  c.isAlphanum || c = '_'

/-- A position is a word boundary when the neighbouring character (if any) is
not a word character. -/
def boundaryOk : Option Char → Bool
  | none => true
  | some c => !isWordChar c

/-- Does `pat` occur at the head of `s`, ended by a word boundary? -/
def wordAtHead (pat s : List Char) : Bool :=
  pat.isPrefixOf s &&
    (match s.drop pat.length with
     | [] => true
     | c :: _ => !isWordChar c)

/-- Scan `s` for a whole-word occurrence of `pat`; `prev` is the character
just before the current position (for the left boundary). -/
def scanWord (pat : List Char) : Option Char → List Char → Bool
  | prev, [] => boundaryOk prev && wordAtHead pat []
  | prev, c :: rest =>
    (boundaryOk prev && wordAtHead pat (c :: rest)) || scanWord pat (some c) rest

/-- Whole-word containment, as the regex `\b...\b` used by the sources. -/
def containsWholeWord (pat s : List Char) : Bool :=
  scanWord pat none s

/-- The check `re.search(r"\b(exit|quit)\b", transcript, re.I)` from
src/main.py:167 and src/video.py:147. -/
def exitMatch (t : List Char) : Bool :=
  let l := t.map Char.toLower
  containsWholeWord "exit".toList l || containsWholeWord "quit".toList l

/-- Plain substring containment, Python `pat in msg`. -/
def containsSub (pat s : List Char) : Bool :=
  s.tails.any fun t => pat.isPrefixOf t

/-!
## BoundedFrameQueue and MicrophoneStream.generator (src/main.py:65-89)

The capture callback `_fill_buffer` does `self._buff.put(in_data)` on an
unbounded `queue.Queue`; the consumer generator repeatedly takes one chunk
(blocking), drains whatever else is already queued, and yields the
concatenation of that batch.  A `None` sentinel ends the generator.

The queue content is a list (FIFO); a push is a total function appending at
the tail (an unbounded `put` never blocks).  A run of the generator is
determined by how the pushed sequence is partitioned into the batches the
consumer observes: `micGenerator` maps that batching to the list of yielded
byte buffers, mirroring the source's drain loop including its treatment of
the sentinel.
-/

/-- Python `queue.Queue.put` on an unbounded queue: total, appends at the tail. -/
def pushChunk {γ : Type} (q : List γ) (x : γ) : List γ :=
  q ++ [x]

/-- The generator `MicrophoneStream.generator` from src/main.py:69-89, as a function of the
batching of the pushed sequence.  Each inner list is one observed batch: the
first element is obtained by the blocking `get`, the rest by the non-blocking
drain loop.  `none` is the end-of-stream sentinel: at the head of a batch the
generator returns before yielding; mid-drain it returns, discarding the data
accumulated for that batch. -/
def micGenerator {β : Type} : List (List (Option (List β))) → List (List β)
  | [] => []
  | [] :: rest => micGenerator rest
  | (none :: _) :: _ => []
  | (some c :: tail) :: rest =>
    if tail.any Option.isNone then []
    else (c :: tail.reduceOption).flatten :: micGenerator rest

/-!
## Request chunk splitting (src/V2.py:417-423)

    for chunk in mic.generator():
        for i in range(0, len(chunk), MAX_CHUNK_BYTES):
            piece = chunk[i:i+MAX_CHUNK_BYTES]
            yield StreamingRecognizeRequest(audio=piece)
-/

def MAX_CHUNK_BYTES : ℕ := 25600

/-- The pieces `chunk[i:i+n]` for `i in range(0, len(chunk), n)`. -/
def chunkSplit {β : Type} (n : ℕ) : List β → List (List β)
  | [] => []
  | x :: xs =>
    if n = 0 then []
    else (x :: xs).take n :: chunkSplit n ((x :: xs).drop n)
termination_by l => l.length
decreasing_by
  rename_i hn
  simpa [List.length_drop] using
    Nat.sub_lt (Nat.succ_pos xs.length) (Nat.pos_of_ne_zero hn)

/-- All audio pieces sent within one session, in order: the generator's
chunks, each split. -/
def sessionPieces {β : Type} (chunks : List (List β)) : List (List β) :=
  (chunks.map (chunkSplit MAX_CHUNK_BYTES)).flatten

theorem chunkSplit_flatten {β : Type} (n : ℕ) (hn : n ≠ 0) :
    ∀ (k : ℕ) (l : List β), l.length ≤ k → (chunkSplit n l).flatten = l := by
  intro k
  induction k with
  | zero =>
    intro l hl
    have : l = [] := List.length_eq_zero.mp (Nat.le_zero.mp hl)
    subst this
    simp [chunkSplit]
  | succ k ih =>
    intro l hl
    match l with
    | [] => simp [chunkSplit]
    | x :: xs =>
      rw [chunkSplit, if_neg hn, List.flatten_cons]
      have hdrop : ((x :: xs).drop n).length ≤ k := by
        rw [List.length_drop]
        have := List.length_cons x xs ▸ hl
        omega
      rw [ih _ hdrop, List.take_append_drop]

theorem chunkSplit_length_le {β : Type} (n : ℕ) :
    ∀ (k : ℕ) (l : List β), l.length ≤ k →
      ∀ p ∈ chunkSplit n l, p.length ≤ n := by
  intro k
  induction k with
  | zero =>
    intro l hl p hp
    have : l = [] := List.length_eq_zero.mp (Nat.le_zero.mp hl)
    subst this
    simp [chunkSplit] at hp
  | succ k ih =>
    intro l hl p hp
    match l with
    | [] => simp [chunkSplit] at hp
    | x :: xs =>
      by_cases hn : n = 0
      · rw [chunkSplit, if_pos hn] at hp
        simp at hp
      · rw [chunkSplit, if_neg hn, List.mem_cons] at hp
        rcases hp with hp | hp
        · subst hp
          simp
        · have hdrop : ((x :: xs).drop n).length ≤ k := by
            rw [List.length_drop]
            have := List.length_cons x xs ▸ hl
            omega
          exact ih _ hdrop p hp

/-!
## V2 per-result policy (src/V2.py:431-446)

    for result in resp.results:
        if not result.alternatives: continue
        transcript = result.alternatives[0].transcript.strip()
        is_final = result.is_final
        stability = result.stability
        if not is_final and stability < STABILITY_THRESHOLD: continue
        result_queue.put((transcript, is_final))
-/

/-- A V2 `StreamingRecognitionResult`: alternative transcripts, finality flag
and stability score. -/
structure V2Result where
  alternatives : List (List Char)
  isFinal : Bool
  stability : ℚ

def STABILITY_THRESHOLD : ℚ := 80 / 100

/-- Processing of one V2 result: `none` when the result is dropped, otherwise
the `(transcript, is_final)` pair put on `result_queue`. -/
def v2ProcessResult (r : V2Result) : Option (List Char × Bool) :=
  match r.alternatives with
  | [] => none
  | t :: _ =>
    let transcript := trimChars t
    if r.isFinal = false ∧ r.stability < STABILITY_THRESHOLD then none
    else some (transcript, r.isFinal)

/-!
## listen_print_loop (src/main.py:131-194 and src/video.py:117-155)

Results and responses of the V1 API.  The translation call
`translate_text([transcript])[0]` is abstracted as a function
`tr : List Char → List Char`; wall-clock readings of `time.time()` enter as
explicit per-response arrival times.
-/

/-- A V1 result: alternative transcripts and the finality flag. -/
structure SResult where
  alternatives : List (List Char)
  isFinal : Bool

/-- A V1 streaming response: a list of results (the loop reads `results[0]`). -/
structure SResponse where
  results : List SResult

/-- The throttling state of src/main.py's loop: `last_translate_time`,
`last_translated_text` and `num_chars_printed`. -/
structure LPState where
  lastTime : ℚ
  lastText : List Char
  numChars : ℕ

def TRANSLATION_INTERVAL : ℚ := 1

/-- The string `"Exiting.."` put on the queue by the exit branch. -/
def exitingMsg : List Char := "Exiting..".toList

/-- Whether `text.strip()` ends with `.`, `!` or `?` (src/main.py:138-141). -/
def sentenceFinished (t : List Char) : Bool :=
  match (trimChars t).getLast? with
  | some c => c == '.' || c == '!' || c == '?'
  | none => false

/-- One iteration of src/main.py's `listen_print_loop` body for one response
arriving at time `now`: the updated state, the strings put on
`transcript_queue`, and whether the loop signals exit. -/
def stepLP (tr : List Char → List Char) (now : ℚ) (st : LPState)
    (resp : SResponse) : LPState × List (List Char) × Bool :=
  match resp.results with
  | [] => (st, [], false)
  | result :: _ =>
    match result.alternatives with
    | [] => (st, [], false)
    | transcript :: _ =>
      if trimChars transcript = [] then (st, [], false)
      else if result.isFinal || sentenceFinished transcript then
        let translated := tr transcript
        if exitMatch transcript then (st, [translated, exitingMsg], true)
        else ({ lastTime := now, lastText := translated, numChars := 0 },
          [translated], false)
      else
        if TRANSLATION_INTERVAL ≤ now - st.lastTime then
          let translated := tr transcript
          ({ lastTime := now, lastText := translated,
             numChars := translated.length }, [translated], false)
        else
          let translated := if st.lastText = [] then transcript else st.lastText
          (st,
            [translated ++ List.replicate (st.numChars - translated.length) ' '],
            false)

/-- src/main.py's `listen_print_loop` over a finite run of timed responses:
the strings put on the queue, and the returned `should_exit` flag.  A `true`
flag makes `run_transcription` break out of its restart loop, so processing
stops at that response. -/
def listenPrintLoop (tr : List Char → List Char) (st : LPState) :
    List (ℚ × SResponse) → List (List Char) × Bool
  | [] => ([], false)
  | (now, resp) :: rest =>
    let out := stepLP tr now st resp
    if out.2.2 then (out.2.1, true)
    else
      let next := listenPrintLoop tr out.1 rest
      (out.2.1 ++ next.1, next.2)

/-- One iteration of src/video.py's `listen_print_loop` body; the state is
`num_chars_printed`.  Returns the new state, the strings put on the queue,
and whether `exit_flag` was set (which breaks the loop). -/
def stepVP (tr : List Char → List Char) (numChars : ℕ) (resp : SResponse) :
    ℕ × List (List Char) × Bool :=
  match resp.results with
  | [] => (numChars, [], false)
  | result :: _ =>
    match result.alternatives with
    | [] => (numChars, [], false)
    | transcript :: _ =>
      if result.isFinal = false then
        (transcript.length,
          [transcript ++ List.replicate (numChars - transcript.length) ' '],
          false)
      else if trimChars transcript = [] then (0, [], false)
      else
        let translated := tr transcript
        if exitMatch transcript then (0, [translated, exitingMsg], true)
        else (0, [translated], false)

/-- src/video.py's `listen_print_loop` over a finite run of responses. -/
def videoLoop (tr : List Char → List Char) (numChars : ℕ) :
    List SResponse → List (List Char) × Bool
  | [] => ([], false)
  | resp :: rest =>
    let out := stepVP tr numChars resp
    if out.2.2 then (out.2.1, true)
    else
      let next := videoLoop tr out.1 rest
      (out.2.1 ++ next.1, next.2)

/-!
## Driver-loop error dispatch (src/main.py:238-246, src/V2.py:448-453,
src/app_bar_version.py:451-458)
-/

inductive LogKind
  | console
  | warning
  | error
deriving DecidableEq

/-- What one `except` arm of a driver loop does with an exception: whether the
loop goes around for a new session attempt, whether the exception propagates
out of the loop, how long the arm sleeps, and what it logs. -/
structure DispatchResult where
  restarts : Bool
  raised : Bool
  backoffMs : ℕ
  log : Option LogKind
deriving DecidableEq

/-- The string matched by src/main.py:243 to recognize session expiry. -/
def EXPIRY_SUBSTR : List Char := "Exceeded maximum allowed stream duration".toList

/-- src/main.py:238-246: `except OSError` prints and sleeps 2s then retries;
`except Exception` retries silently when the message contains the expiry
string and re-raises otherwise. -/
def mainDispatch (isOSError : Bool) (msg : List Char) : DispatchResult :=
  if isOSError then ⟨true, false, 2000, some .console⟩
  else if containsSub EXPIRY_SUBSTR msg then ⟨true, false, 0, none⟩
  else ⟨false, true, 0, none⟩

/-- Exceptions reaching the V2 / app-bar `Transcriber.run` handlers. -/
inductive V2Error
  | outOfRange
  | otherErr (msg : List Char)

/-- src/V2.py:448-453 (identically src/app_bar_version.py:451-458):
`except exceptions.OutOfRange` logs a warning and sleeps 0.5s; any other
exception logs an error and sleeps 0.5s; both fall back into the `while`
loop, so a new session attempt follows. -/
def v2Dispatch : V2Error → DispatchResult
  | .outOfRange => ⟨true, false, 500, some .warning⟩
  | .otherErr _ => ⟨true, false, 500, some .error⟩

/-!
## translate_text (src/main.py:92-122 and src/video.py:101-114)

The remote call is abstracted: `svc` is the per-item translation the service
returns for a request list (the service contract returns one translation per
content, in order) and `unesc` is `html.unescape`.
-/

/-- The `contents` list src/main.py sends to the API: empty or
whitespace-only entries are dropped first. -/
def mainSentContents (texts : List (List Char)) : List (List Char) :=
  texts.filter fun t => !(trimChars t).isEmpty

/-- The rebuild loop of src/main.py:114-122: walk the original list, taking
the next translation for non-empty slots and passing empty slots through.
(The source indexes `translated[ti]`, which never runs out under the service
contract; the impossible underflow branch returns the remainder unchanged.) -/
def rebuildOut : List (List Char) → List (List Char) → List (List Char)
  | [], _ => []
  | t :: ts, translated =>
    if (trimChars t).isEmpty then t :: rebuildOut ts translated
    else
      match translated with
      | tr :: trs => tr :: rebuildOut ts trs
      | [] => t :: ts

/-- src/main.py's `translate_text`. -/
def translate_text (svc unesc : List Char → List Char)
    (texts : List (List Char)) : List (List Char) :=
  let nonempty := mainSentContents texts
  if nonempty.isEmpty then texts
  else rebuildOut texts ((nonempty.map svc).map unesc)

/-- The `contents` list src/video.py sends to the API: all entries, with no
filtering. -/
def videoSentContents (texts : List (List Char)) : List (List Char) :=
  texts

/-- src/video.py's `translate_text`: translates every entry. -/
def videoTranslate (svc unesc : List Char → List Char)
    (texts : List (List Char)) : List (List Char) :=
  (texts.map svc).map unesc

/-- Modelled from the spec: the translation contract of §6 — entries that are
empty or whitespace-only pass through unchanged, all others are replaced by
their (HTML-entity-decoded) translation, length and order preserved.  Used as
the specification side of the refinement for claim C7. -/
def specTranslate (f : List Char → List Char) (texts : List (List Char)) :
    List (List Char) :=
  texts.map fun t => if (trimChars t).isEmpty then t else f t

/-!
## SessionBridge and TimestampCorrector

No file under src/ implements the session bridging of spec §4.3 or the
timestamp correction of §4.5 (the restart loops in src/main.py and src/V2.py
open each new session with a fresh stream and never read result end
offsets).  The definitions below are therefore modelled from the
specification text, and the claims about them are settled against this
model.
-/

/-- Modelled from the spec (§4.3): `chunkDurationMs = sessionLimitMs /
chunkCount(lastSessionHistory)`, a rational number of milliseconds. -/
def chunkDur (limitMs : ℤ) (count : ℕ) : ℚ :=
  (limitMs : ℚ) / (count : ℚ)

/-- Modelled from the spec (§4.3): `chunksAlreadyFinal =
round((finalRequestEndTimeMs - bridgingOffsetMs) / chunkDurationMs)`. -/
def chunksAlreadyFinal (limitMs : ℤ) (count : ℕ) (finalEnd bridge : ℤ) : ℤ :=
  round (((finalEnd - bridge : ℤ) : ℚ) / chunkDur limitMs count)

/-- Modelled from the spec (§4.3): the bridging offset carried into the next
session.  When the history is non-empty and `bridgingOffsetMs <
finalRequestEndTimeMs`, it becomes `round((chunkCount - chunksAlreadyFinal) *
chunkDurationMs)`; otherwise nothing is replayed and it is unchanged. -/
def nextBridge (limitMs : ℤ) (count : ℕ) (finalEnd bridge : ℤ) : ℤ :=
  if 0 < count ∧ bridge < finalEnd then
    round ((((count : ℤ) - chunksAlreadyFinal limitMs count finalEnd bridge : ℤ) : ℚ)
      * chunkDur limitMs count)
  else bridge

/-- One session of the run, for the timestamp-correction model: the chunk
count of its history, the end offset of its last confirmed final result, and
the (session-relative) end offsets of the results it emitted. -/
structure SessionRec where
  chunkCount : ℕ
  finalEndMs : ℤ
  resultEnds : List ℤ
deriving DecidableEq

/-- The bridging offset in force during session `k` of a run: 0 for the first
session, then updated from each ending session's history per §4.3. -/
def bridgeAt (limitMs : ℤ) (run : List SessionRec) : ℕ → ℤ
  | 0 => 0
  | k + 1 =>
    match run.get? k with
    | some s => nextBridge limitMs s.chunkCount s.finalEndMs (bridgeAt limitMs run k)
    | none => bridgeAt limitMs run k

/-- Modelled from the spec (§4.5): `correctedOffsetMs = result.endOffsetMs -
session.bridgingOffsetMs + sessionDurationLimitMs * session.restartCount`. -/
def correctMs (limitMs : ℤ) (endOff bridge : ℤ) (restartCount : ℕ) : ℤ :=
  endOff - bridge + limitMs * restartCount

/-- The monotonic-timeline property claimed for the corrected offsets: for
sessions `i < j` and any emitted results `r ∈ i`, `s ∈ j`, `correct(r) ≤
correct(s)`. -/
def monotonicTimeline (limitMs : ℤ) (run : List SessionRec) : Prop :=
  ∀ i j, i < j →
    ∀ si ∈ run.get? i, ∀ sj ∈ run.get? j,
      ∀ r ∈ si.resultEnds, ∀ s ∈ sj.resultEnds,
        correctMs limitMs r (bridgeAt limitMs run i) i ≤
          correctMs limitMs s (bridgeAt limitMs run j) j

/-- One session of the run, for the continuity model: the chunks captured
during the session (its `SessionHistory`) and the end offset of its last
confirmed final result. -/
structure CapSession (β : Type) where
  finalEndMs : ℤ
  cap : List β
deriving DecidableEq

/-- Modelled from the spec (§4.3): the chunks of the previous session's
history replayed into the new session — from index `chunksAlreadyFinal` to
the end when the condition of step 1 holds, nothing otherwise. -/
def replayChunks {β : Type} (limitMs : ℤ) (bridge : ℤ) (prev : CapSession β) :
    List β :=
  if 0 < prev.cap.length ∧ bridge < prev.finalEndMs then
    prev.cap.drop
      (chunksAlreadyFinal limitMs prev.cap.length prev.finalEndMs bridge).toNat
  else []

/-- The number of leading chunks of the previous history omitted from the
replay: the confirmed prefix in step 1, the whole (fully confirmed) history
in step 2. -/
def omittedCount {β : Type} (limitMs : ℤ) (bridge : ℤ) (prev : CapSession β) : ℕ :=
  if 0 < prev.cap.length ∧ bridge < prev.finalEndMs then
    (chunksAlreadyFinal limitMs prev.cap.length prev.finalEndMs bridge).toNat
  else prev.cap.length

/-- The chunk sequences fed to the recognition streams of a run of sessions:
each session receives the bridge replay from its predecessor followed by its
own live chunks. `bridge` and `prev` carry the SessionBridge state. -/
def feeds {β : Type} (limitMs : ℤ) :
    List (CapSession β) → ℤ → Option (CapSession β) → List (List β)
  | [], _, _ => []
  | s :: rest, bridge, none => s.cap :: feeds limitMs rest bridge (some s)
  | s :: rest, bridge, some p =>
    (replayChunks limitMs bridge p ++ s.cap) ::
      feeds limitMs rest (nextBridge limitMs p.cap.length p.finalEndMs bridge) (some s)

/-!
## Theorems
-/

lemma chunkSplit_eq_single {β : Type} (n : ℕ) (hn : n ≠ 0) (x : β)
    (xs : List β) (h : (x :: xs).length ≤ n) :
    chunkSplit n (x :: xs) = [x :: xs] := by
  rw [chunkSplit, if_neg hn, List.take_of_length_le h, List.drop_eq_nil_of_le h]
  simp [chunkSplit]

/-- Claim C10: in the V2 transcriber, every audio request message carries at
most `MAX_CHUNK_BYTES` (25600) bytes, and the in-order concatenation of all
pieces sent within a session equals the in-order concatenation of the chunks
produced by the audio generator — nothing dropped, duplicated or
reordered. -/
theorem request_chunk_splitting {β : Type} (chunks : List (List β)) :
    (∀ p ∈ sessionPieces chunks, p.length ≤ MAX_CHUNK_BYTES) ∧
    (sessionPieces chunks).flatten = chunks.flatten := by
  constructor
  · intro p hp
    unfold sessionPieces at hp
    rw [List.mem_flatten] at hp
    obtain ⟨l, hl, hpl⟩ := hp
    rw [List.mem_map] at hl
    obtain ⟨c, _, rfl⟩ := hl
    exact chunkSplit_length_le MAX_CHUNK_BYTES c.length c le_rfl p hpl
  · unfold sessionPieces
    induction chunks with
    | nil => rfl
    | cons c cs ih =>
      rw [List.map_cons, List.flatten_cons, List.flatten_append, ih,
        chunkSplit_flatten MAX_CHUNK_BYTES (by decide) c.length c le_rfl,
        List.flatten_cons]

/-- Concrete instance of `request_chunk_splitting`. -/
theorem request_chunk_splitting_witness :
    ([1, 2, 3] : List ℕ).length ≤ MAX_CHUNK_BYTES ∧
    (sessionPieces [[1, 2, 3], [4]] : List (List ℕ)).flatten =
      ([[1, 2, 3], [4]] : List (List ℕ)).flatten := by
  have hmem : ([1, 2, 3] : List ℕ) ∈ sessionPieces [[1, 2, 3], [4]] := by
    have h1 : chunkSplit MAX_CHUNK_BYTES ([1, 2, 3] : List ℕ) = [[1, 2, 3]] :=
      chunkSplit_eq_single MAX_CHUNK_BYTES (by decide) 1 [2, 3] (by decide)
    simp [sessionPieces, h1]
  exact ⟨(request_chunk_splitting [[1, 2, 3], [4]]).1 [1, 2, 3] hmem,
    (request_chunk_splitting [[1, 2, 3], [4]]).2⟩

lemma foldl_pushChunk {γ : Type} (pushes : List γ) :
    ∀ q : List γ, List.foldl pushChunk q pushes = q ++ pushes := by
  induction pushes with
  | nil => intro q; simp
  | cons x xs ih =>
    intro q
    rw [List.foldl_cons, ih]
    simp [pushChunk]

/-- Claim C8: the queue between the audio callback and the session driver is
FIFO and lossless under normal operation (no sentinel pushed): pushing is a
total tail-append (the producer callback is never blocked), and whatever way
the pushed chunks are batched by the consumer, the concatenation of the
generator's yields equals the in-order concatenation of the pushed chunks. -/
theorem frame_queue_fifo {β : Type} (pushes : List (Option (List β)))
    (batches : List (List (Option (List β))))
    (hb : batches.flatten = pushes)
    (hs : ∀ b ∈ batches, ∀ x ∈ b, x.isSome = true) :
    (micGenerator batches).flatten = pushes.reduceOption.flatten ∧
    ∀ q : List (Option (List β)), List.foldl pushChunk q pushes = q ++ pushes := by
  subst hb
  refine ⟨?_, fun q => foldl_pushChunk _ q⟩
  induction batches with
  | nil => simp [micGenerator]
  | cons b rest ih =>
    have hrest : ∀ c ∈ rest, ∀ x ∈ c, x.isSome = true := by
      intro c hc x hx
      exact hs c (List.mem_cons_of_mem b hc) x hx
    match b with
    | [] =>
      rw [micGenerator]
      simpa using ih hrest
    | none :: tail =>
      have := hs (none :: tail) (List.mem_cons_self _ _) none (List.mem_cons_self _ _)
      simp at this
    | some c :: tail =>
      have hnone : tail.any Option.isNone = false := by
        rw [List.any_eq_false]
        intro x hx
        have := hs (some c :: tail) (List.mem_cons_self _ _) x
          (List.mem_cons_of_mem _ hx)
        simp [Option.isNone_eq_false_iff, Option.isSome_iff_exists] at this ⊢
        obtain ⟨a, rfl⟩ := this
        simp
      rw [micGenerator, if_neg (by simp [hnone])]
      simp [ih hrest, List.reduceOption_append, List.flatten_append]

/-- Concrete instance of `frame_queue_fifo`. -/
theorem frame_queue_fifo_witness :
    (micGenerator [[some [1, 2]], [some [3], some [4]]]).flatten =
      (([[some [1, 2]], [some [3], some [4]]] :
        List (List (Option (List ℕ)))).flatten).reduceOption.flatten ∧
    ∀ q : List (Option (List ℕ)),
      List.foldl pushChunk q [some [1, 2], some [3], some [4]] =
        q ++ [some [1, 2], some [3], some [4]] :=
  frame_queue_fifo [some [1, 2], some [3], some [4]]
    [[some [1, 2]], [some [3], some [4]]] rfl (by decide)

/-- Claim C3: in the V2 per-result policy, a non-final result with stability
below the threshold (0.8) is never forwarded to the output queue, and a
final result (with a transcript alternative present) is always forwarded,
regardless of its stability score. -/
theorem stability_gating :
    (∀ r : V2Result, r.isFinal = false → r.stability < STABILITY_THRESHOLD →
      v2ProcessResult r = none) ∧
    (∀ (r : V2Result) (t : List Char) (rest : List (List Char)),
      r.alternatives = t :: rest → r.isFinal = true →
      v2ProcessResult r = some (trimChars t, true)) := by
  constructor
  · intro r hf hs
    unfold v2ProcessResult
    match halts : r.alternatives with
    | [] => rfl
    | t :: _ => simp [hf, hs]
  · intro r t rest halts hf
    unfold v2ProcessResult
    rw [halts]
    simp [hf]

/-- Concrete instance of `stability_gating`. -/
theorem stability_gating_witness :
    v2ProcessResult ⟨["hi".toList], false, 1 / 2⟩ = none ∧
    v2ProcessResult ⟨[" ok".toList], true, 0⟩ = some (trimChars " ok".toList, true) :=
  ⟨stability_gating.1 ⟨["hi".toList], false, 1 / 2⟩ rfl (by norm_num [STABILITY_THRESHOLD]),
    stability_gating.2 ⟨[" ok".toList], true, 0⟩ " ok".toList [] rfl rfl⟩

/-- Claim C4: when the stream fails with the service's session-expiry error
kind, every driver loop goes around for a new session and the exception does
not propagate; at most a warning/console entry is produced.  Covers
src/main.py (string match on the expiry message) and src/V2.py /
src/app_bar_version.py (`exceptions.OutOfRange`). -/
theorem expiry_restart :
    (∀ (b : Bool) (msg : List Char), containsSub EXPIRY_SUBSTR msg = true →
      (mainDispatch b msg).restarts = true ∧ (mainDispatch b msg).raised = false) ∧
    ((v2Dispatch .outOfRange).restarts = true ∧
      (v2Dispatch .outOfRange).raised = false ∧
      (v2Dispatch .outOfRange).log = some .warning) := by
  refine ⟨fun b msg h => ?_, rfl, rfl, rfl⟩
  unfold mainDispatch
  by_cases hb : b = true
  · simp [hb]
  · simp [Bool.eq_false_iff.mpr hb, h]

/-- Concrete instance of `expiry_restart`. -/
theorem expiry_restart_witness :
    (mainDispatch false EXPIRY_SUBSTR).restarts = true ∧
    (mainDispatch false EXPIRY_SUBSTR).raised = false :=
  expiry_restart.1 false EXPIRY_SUBSTR (by decide)

/-- Claim C5 as stated: every non-expiry error in src/main.py's driver loop
is surfaced only as a log entry, backed off about 0.5s, retried, and never
propagates out of the loop. -/
def transientHandledInLoop : Prop :=
  ∀ (b : Bool) (msg : List Char), containsSub EXPIRY_SUBSTR msg = false →
    (mainDispatch b msg).raised = false ∧ (mainDispatch b msg).restarts = true ∧
      (mainDispatch b msg).backoffMs = 500

/-- Claim C5 is false on src/main.py: a generic non-expiry exception (e.g. a
network error) is re-raised by `run_transcription` and unwinds past the
loop. -/
theorem transient_errors_counterexample : ¬ transientHandledInLoop := by
  intro h
  have he : mainDispatch false "network error".toList =
      ⟨false, true, 0, none⟩ := by decide
  have := h false "network error".toList (by decide)
  rw [he] at this
  exact absurd this.1 (by decide)

/-- Claim C5 amended: in the V2 and app-bar transcriber loops every
non-expiry error is logged as an error, slept on for 0.5s, and retried as a
new session attempt, never propagating; in src/main.py only audio `OSError`s
are retried (console entry, 2s backoff), while any other non-expiry
exception is re-raised out of the driver loop. -/
theorem transient_errors_amended :
    (∀ msg, v2Dispatch (.otherErr msg) = ⟨true, false, 500, some .error⟩) ∧
    (∀ msg, mainDispatch true msg = ⟨true, false, 2000, some .console⟩) ∧
    (∀ msg, containsSub EXPIRY_SUBSTR msg = false →
      (mainDispatch false msg).raised = true ∧
        (mainDispatch false msg).restarts = false) := by
  refine ⟨fun msg => rfl, fun msg => rfl, fun msg h => ?_⟩
  unfold mainDispatch
  simp [h]

/-- Concrete instance of `transient_errors_amended`. -/
theorem transient_errors_amended_witness :
    v2Dispatch (.otherErr "boom".toList) = ⟨true, false, 500, some .error⟩ ∧
    mainDispatch true "device busy".toList = ⟨true, false, 2000, some .console⟩ ∧
    (mainDispatch false "network error".toList).raised = true :=
  ⟨transient_errors_amended.1 "boom".toList,
    transient_errors_amended.2.1 "device busy".toList,
    (transient_errors_amended.2.2 "network error".toList (by decide)).1⟩

/-- Claim C6: a forwarded final transcript containing an exit/quit token
(whole word, case-insensitive) makes the loop emit its translation, then the
"Exiting.." marker, signal exit, and process nothing further — in
src/main.py's `listen_print_loop` and src/video.py's. -/
theorem exit_command :
    (∀ (tr : List Char → List Char) (st : LPState) (now : ℚ) (resp : SResponse)
      (rest : List (ℚ × SResponse)) (result : SResult) (others : List SResult)
      (t : List Char) (ts : List (List Char)),
      resp.results = result :: others →
      result.alternatives = t :: ts →
      result.isFinal = true →
      trimChars t ≠ [] →
      exitMatch t = true →
      listenPrintLoop tr st ((now, resp) :: rest) = ([tr t, exitingMsg], true)) ∧
    (∀ (tr : List Char → List Char) (numChars : ℕ) (resp : SResponse)
      (rest : List SResponse) (result : SResult) (others : List SResult)
      (t : List Char) (ts : List (List Char)),
      resp.results = result :: others →
      result.alternatives = t :: ts →
      result.isFinal = true →
      trimChars t ≠ [] →
      exitMatch t = true →
      videoLoop tr numChars (resp :: rest) = ([tr t, exitingMsg], true)) := by
  constructor
  · intro tr st now resp rest result others t ts hres halts hfin hne hexit
    have hstep : stepLP tr now st resp = (st, [tr t, exitingMsg], true) := by
      unfold stepLP
      rw [hres]
      simp [halts, hne, hfin, hexit]
    rw [listenPrintLoop, hstep]
    simp
  · intro tr numChars resp rest result others t ts hres halts hfin hne hexit
    have hstep : stepVP tr numChars resp = (0, [tr t, exitingMsg], true) := by
      unfold stepVP
      rw [hres]
      simp [halts, hne, hfin, hexit]
    rw [videoLoop, hstep]
    simp

/-- Concrete instance of `exit_command`. -/
theorem exit_command_witness :
    listenPrintLoop id ⟨0, [], 0⟩
      [(0, ⟨[⟨["time to quit".toList], true⟩]⟩), (1, ⟨[]⟩)] =
      (["time to quit".toList, exitingMsg], true) ∧
    videoLoop id 0 [⟨[⟨["Quit now.".toList], true⟩]⟩, ⟨[]⟩] =
      (["Quit now.".toList, exitingMsg], true) :=
  ⟨exit_command.1 id ⟨0, [], 0⟩ 0 _ _ _ [] _ [] rfl rfl rfl (by decide) (by decide),
    exit_command.2 id 0 _ _ _ [] _ [] rfl rfl rfl (by decide) (by decide)⟩

/-- Claim C7 as stated (for src/video.py's `translate_text`): whitespace-only
entries come back unchanged and are never sent to the service. -/
def videoTranslateContract : Prop :=
  ∀ (svc unesc : List Char → List Char) (texts : List (List Char)),
    (∀ t ∈ texts, trimChars t = [] →
      t ∉ videoSentContents texts ∧
      videoTranslate svc unesc texts = texts)

/-- Claim C7 is false on src/video.py's `translate_text`: it sends the whole
input list, including whitespace-only entries, and replaces them with
whatever the service returns. -/
theorem translate_contract_counterexample : ¬ videoTranslateContract := by
  intro h
  have := h (fun _ => ['X']) id [[' ']] [' '] (by decide) (by decide)
  exact absurd this.1 (by decide)

/-- Applying `rebuildOut` to the translated filter restores the untranslated
slots: it implements the per-slot map of the contract. -/
lemma rebuildOut_spec (f : List Char → List Char) :
    ∀ texts : List (List Char),
      rebuildOut texts ((mainSentContents texts).map f) = specTranslate f texts := by
  intro texts
  induction texts with
  | nil => rfl
  | cons t ts ih =>
    by_cases hw : (trimChars t).isEmpty
    · have hfil : mainSentContents (t :: ts) = mainSentContents ts := by
        simp [mainSentContents, List.filter_cons, hw]
      rw [hfil]
      simp only [rebuildOut, if_pos hw, ih]
      rw [List.isEmpty_iff] at hw
      simp [specTranslate, hw]
    · have hfil : mainSentContents (t :: ts) = t :: mainSentContents ts := by
        simp [mainSentContents, List.filter_cons, hw]
      rw [hfil, List.map_cons]
      simp only [rebuildOut, if_neg hw]
      rw [ih]
      rw [List.isEmpty_iff] at hw
      simp [specTranslate, hw]

/-- Claim C7 amended: src/main.py's `translate_text` satisfies the contract —
it equals the per-entry map that passes empty/whitespace-only entries through
untouched and replaces each other entry by the HTML-entity-decoded
translation, so length and order are preserved; and every entry it sends to
the service is non-whitespace.  src/video.py's variant sends everything,
including whitespace-only entries. -/
theorem translate_contract_amended (svc unesc : List Char → List Char)
    (texts : List (List Char)) :
    translate_text svc unesc texts = specTranslate (unesc ∘ svc) texts ∧
    (translate_text svc unesc texts).length = texts.length ∧
    (∀ t ∈ mainSentContents texts, trimChars t ≠ []) := by
  have hmain : translate_text svc unesc texts = specTranslate (unesc ∘ svc) texts := by
    unfold translate_text
    by_cases hemp : (mainSentContents texts).isEmpty
    · rw [if_pos hemp]
      have hall : ∀ t ∈ texts, (trimChars t).isEmpty = true := by
        intro t ht
        by_contra hne
        have : t ∈ mainSentContents texts := by
          simp [mainSentContents, List.mem_filter, ht, hne]
        rw [List.isEmpty_iff] at hemp
        simp [hemp] at this
      unfold specTranslate
      conv_lhs => rw [← List.map_id texts]
      exact List.map_congr_left fun t ht => by simp [hall t ht]
    · rw [if_neg hemp, List.map_map]
      exact rebuildOut_spec (unesc ∘ svc) texts
  refine ⟨hmain, ?_, ?_⟩
  · rw [hmain]
    simp [specTranslate]
  · intro t ht
    rw [mainSentContents, List.mem_filter] at ht
    simpa [List.isEmpty_iff] using ht.2

/-- Concrete instance of `translate_contract_amended`. -/
theorem translate_contract_amended_witness :
    translate_text (fun _ => ['X']) id [[' '], ['a']] =
      specTranslate (id ∘ fun _ => ['X']) [[' '], ['a']] ∧
    trimChars ['a'] ≠ [] :=
  ⟨(translate_contract_amended (fun _ => ['X']) id [[' '], ['a']]).1,
    (translate_contract_amended (fun _ => ['X']) id [[' '], ['a']]).2.2 ['a']
      (by decide)⟩

/-- Claim C9 as stated is false: src/V2.py forwards a final result whose
transcript is whitespace-only (as the empty string), and src/video.py emits
an interim event for an empty transcript. -/
theorem empty_result_counterexample :
    v2ProcessResult ⟨[[' ']], true, 0⟩ = some ([], true) ∧
    (stepVP id 0 ⟨[⟨[[]], false⟩]⟩).2.1 = [[]] := by
  constructor
  · simp [v2ProcessResult, trimChars]
  · rfl

/-- Claim C9 amended: responses with no results and results with no
alternatives produce no output event in any variant; empty or
whitespace-only transcripts are skipped by src/main.py's loop for final and
interim results alike and by src/video.py for final results; but src/V2.py
forwards empty-transcript results (stripped to the empty string, final or
sufficiently stable interim), and src/video.py emits interim events for
empty transcripts. -/
theorem empty_result_amended :
    (∀ (tr : List Char → List Char) (now : ℚ) (st : LPState),
      stepLP tr now st ⟨[]⟩ = (st, [], false)) ∧
    (∀ (tr : List Char → List Char) (now : ℚ) (st : LPState) (fin : Bool)
      (rest : List SResult), stepLP tr now st ⟨⟨[], fin⟩ :: rest⟩ = (st, [], false)) ∧
    (∀ (tr : List Char → List Char) (now : ℚ) (st : LPState) (fin : Bool)
      (t : List Char) (ts : List (List Char)) (rest : List SResult),
      trimChars t = [] →
      stepLP tr now st ⟨⟨t :: ts, fin⟩ :: rest⟩ = (st, [], false)) ∧
    (∀ (fin : Bool) (stab : ℚ), v2ProcessResult ⟨[], fin, stab⟩ = none) ∧
    (∀ (tr : List Char → List Char) (n : ℕ), stepVP tr n ⟨[]⟩ = (n, [], false)) ∧
    (∀ (tr : List Char → List Char) (n : ℕ) (fin : Bool) (rest : List SResult),
      stepVP tr n ⟨⟨[], fin⟩ :: rest⟩ = (n, [], false)) ∧
    (∀ (tr : List Char → List Char) (n : ℕ) (t : List Char)
      (ts : List (List Char)) (rest : List SResult),
      trimChars t = [] →
      stepVP tr n ⟨⟨t :: ts, true⟩ :: rest⟩ = (0, [], false)) ∧
    (∀ (t : List Char) (ts : List (List Char)) (stab : ℚ),
      trimChars t = [] → v2ProcessResult ⟨t :: ts, true, stab⟩ = some ([], true)) ∧
    (∀ (tr : List Char → List Char) (n : ℕ) (t : List Char)
      (ts : List (List Char)) (rest : List SResult),
      (stepVP tr n ⟨⟨t :: ts, false⟩ :: rest⟩).2.1 =
        [t ++ List.replicate (n - t.length) ' ']) := by
  refine ⟨fun tr now st => rfl, fun tr now st fin rest => rfl,
    fun tr now st fin t ts rest hw => ?_, fun fin stab => rfl,
    fun tr n => rfl, fun tr n fin rest => rfl,
    fun tr n t ts rest hw => ?_, fun t ts stab hw => ?_,
    fun tr n t ts rest => rfl⟩
  · unfold stepLP
    simp [hw]
  · unfold stepVP
    simp [hw]
  · unfold v2ProcessResult
    simp [hw]

/-- Concrete instance of `empty_result_amended`. -/
theorem empty_result_amended_witness :
    stepLP id 0 ⟨0, [], 0⟩ ⟨⟨[[' ', ' ']], true⟩ :: []⟩ = (⟨0, [], 0⟩, [], false) ∧
    stepVP id 3 ⟨⟨[['\t']], true⟩ :: []⟩ = (0, [], false) ∧
    v2ProcessResult ⟨[], false, 1⟩ = none :=
  ⟨empty_result_amended.2.2.1 id 0 ⟨0, [], 0⟩ true [' ', ' '] [] [] (by decide),
    empty_result_amended.2.2.2.2.2.2.1 id 3 ['\t'] [] [] (by decide),
    empty_result_amended.2.2.2.1 false 1⟩

lemma feeds_mem {β : Type} (limit : ℤ) (c : β) :
    ∀ (run : List (CapSession β)) (bridge : ℤ) (prev : Option (CapSession β))
      (s : CapSession β), s ∈ run → c ∈ s.cap →
      c ∈ (feeds limit run bridge prev).flatten := by
  intro run
  induction run with
  | nil =>
    intro bridge prev s hs
    simp at hs
  | cons a rest ih =>
    intro bridge prev s hs hc
    rcases List.mem_cons.mp hs with rfl | hs2
    · match prev with
      | none =>
        rw [feeds, List.flatten_cons]
        exact List.mem_append_left _ hc
      | some p =>
        rw [feeds, List.flatten_cons]
        exact List.mem_append_left _ (List.mem_append_right _ hc)
    · match prev with
      | none =>
        rw [feeds, List.flatten_cons]
        exact List.mem_append_right _ (ih bridge (some a) s hs2 hc)
      | some p =>
        rw [feeds, List.flatten_cons]
        exact List.mem_append_right _ (ih _ (some a) s hs2 hc)

/-- Claim C1 (SessionBridge modelled from spec §4.3; no bridging exists in
src/): in a run with any number of forced expiries and gapless capture,
every captured chunk occurs in the concatenation of the chunk sequences fed
to the session streams (each session feeds its bridge replay then its live
chunks), and each replay omits only a leading prefix of the previous
session's history — the `chunksAlreadyFinal` chunks already confirmed by
final results (or the whole, fully-confirmed history when nothing is
unconfirmed). -/
theorem continuity_bridged_replay {β : Type} (limit : ℤ)
    (run : List (CapSession β)) :
    (∀ s ∈ run, ∀ c ∈ s.cap, c ∈ (feeds limit run 0 none).flatten) ∧
    (∀ (bridge : ℤ) (p : CapSession β),
      p.cap = p.cap.take (omittedCount limit bridge p) ++ replayChunks limit bridge p) := by
  constructor
  · intro s hs c hc
    exact feeds_mem limit c run 0 none s hs hc
  · intro bridge p
    unfold omittedCount replayChunks
    by_cases hc : 0 < p.cap.length ∧ bridge < p.finalEndMs
    · rw [if_pos hc, if_pos hc, List.take_append_drop]
    · rw [if_neg hc, if_neg hc, List.append_nil, List.take_length]

/-- Concrete instance of `continuity_bridged_replay`. -/
theorem continuity_bridged_replay_witness :
    (7 : ℕ) ∈ (feeds 1000 [⟨100, [7]⟩, ⟨0, [8]⟩] 0 none).flatten ∧
    ([7] : List ℕ) =
      [7].take (omittedCount 1000 0 (⟨100, [7]⟩ : CapSession ℕ)) ++
        replayChunks 1000 0 (⟨100, [7]⟩ : CapSession ℕ) :=
  ⟨(continuity_bridged_replay 1000 [⟨100, [7]⟩, ⟨0, [8]⟩]).1 ⟨100, [7]⟩
      (by decide) 7 (by decide),
    (continuity_bridged_replay 1000 [⟨100, [7]⟩, ⟨0, [8]⟩]).2 0 ⟨100, [7]⟩⟩

lemma round_eval (q : ℚ) (n : ℤ) (h1 : (n : ℚ) ≤ q + 1 / 2)
    (h2 : q + 1 / 2 < (n : ℚ) + 1) : round q = n := by
  rw [round_eq]
  exact Int.floor_eq_iff.mpr ⟨h1, h2⟩

lemma bridgeAt_succ (limit : ℤ) (run : List SessionRec) (k : ℕ) (s : SessionRec)
    (h : run.get? k = some s) :
    bridgeAt limit run (k + 1) =
      nextBridge limit s.chunkCount s.finalEndMs (bridgeAt limit run k) := by
  rw [bridgeAt, h]

lemma nb_eval_A : nextBridge 240000 2400 239500 0 = 500 := by
  have hcaf : chunksAlreadyFinal 240000 2400 239500 0 = 2395 := by
    unfold chunksAlreadyFinal chunkDur
    apply round_eval
    · push_cast; norm_num
    · push_cast; norm_num
  unfold nextBridge
  rw [if_pos (by norm_num : (0 : ℕ) < 2400 ∧ (0 : ℤ) < 239500), hcaf]
  unfold chunkDur
  apply round_eval
  · push_cast; norm_num
  · push_cast; norm_num

lemma nb_eval_B : nextBridge 240000 2400 239549 0 = 500 := by
  have hcaf : chunksAlreadyFinal 240000 2400 239549 0 = 2395 := by
    unfold chunksAlreadyFinal chunkDur
    apply round_eval
    · push_cast; norm_num
    · push_cast; norm_num
  unfold nextBridge
  rw [if_pos (by norm_num : (0 : ℕ) < 2400 ∧ (0 : ℤ) < 239549), hcaf]
  unfold chunkDur
  apply round_eval
  · push_cast; norm_num
  · push_cast; norm_num

/-- Claim C2 (TimestampCorrector modelled from spec §4.5; no timestamp
correction exists in src/) is false as stated, on two counts.  First, an
interim result emitted just before expiry can have an end offset beyond the
last final result's: session 0 with 2400 chunks, last final at 239500 ms and
an emitted result at 240000 ms is followed, after the §4.3 update
(`bridgingOffset = 500`), by a session-1 result at 100 ms whose corrected
offset 239600 is smaller than 240000.  Second, even a final result violates
it when the confirmed duration is not a whole number of chunks: with the
last final (and emitted result) at 239549 ms, rounding makes
`chunksAlreadyFinal = 2395`, the session-1 result at 0 ms corrects to
239500 < 239549. -/
theorem monotonic_timeline_counterexample :
    ¬ monotonicTimeline 240000 [⟨2400, 239500, [240000]⟩, ⟨2400, 0, [100]⟩] ∧
    ¬ monotonicTimeline 240000 [⟨2400, 239549, [239549]⟩, ⟨2400, 0, [0]⟩] := by
  constructor
  · intro h
    have hb1 : bridgeAt 240000 [⟨2400, 239500, [240000]⟩, ⟨2400, 0, [100]⟩] 1 = 500 := by
      rw [bridgeAt_succ 240000 [⟨2400, 239500, [240000]⟩, ⟨2400, 0, [100]⟩] 0
        ⟨2400, 239500, [240000]⟩ rfl]
      exact nb_eval_A
    have hb0 : bridgeAt 240000 [⟨2400, 239500, [240000]⟩, ⟨2400, 0, [100]⟩] 0 = 0 := rfl
    have := h 0 1 (by norm_num) ⟨2400, 239500, [240000]⟩ rfl ⟨2400, 0, [100]⟩ rfl
      240000 (by simp) 100 (by simp)
    rw [hb0, hb1] at this
    unfold correctMs at this
    norm_num at this
  · intro h
    have hb1 : bridgeAt 240000 [⟨2400, 239549, [239549]⟩, ⟨2400, 0, [0]⟩] 1 = 500 := by
      rw [bridgeAt_succ 240000 [⟨2400, 239549, [239549]⟩, ⟨2400, 0, [0]⟩] 0
        ⟨2400, 239549, [239549]⟩ rfl]
      exact nb_eval_B
    have hb0 : bridgeAt 240000 [⟨2400, 239549, [239549]⟩, ⟨2400, 0, [0]⟩] 0 = 0 := rfl
    have := h 0 1 (by norm_num) ⟨2400, 239549, [239549]⟩ rfl ⟨2400, 0, [0]⟩ rfl
      239549 (by simp) 0 (by simp)
    rw [hb0, hb1] at this
    unfold correctMs at this
    norm_num at this

/-- Exact chunk arithmetic at the end of session `k`: either session `k`
replays nothing, or the chunk duration is a whole number `d` of milliseconds
(`chunkCount * d = limit`) that divides the unconfirmed duration. -/
def exactStep (limit : ℤ) (run : List SessionRec) (k : ℕ) (s : SessionRec) : Prop :=
  ¬(0 < s.chunkCount ∧ bridgeAt limit run k < s.finalEndMs) ∨
    ∃ d : ℤ, 0 < d ∧ (s.chunkCount : ℤ) * d = limit ∧
      d ∣ (s.finalEndMs - bridgeAt limit run k)

lemma nextBridge_exact (limit : ℤ) (count : ℕ) (finalEnd bridge : ℤ)
    (hc : 0 < count ∧ bridge < finalEnd)
    (d : ℤ) (hd : 0 < d) (hcd : (count : ℤ) * d = limit)
    (hdvd : d ∣ (finalEnd - bridge)) :
    nextBridge limit count finalEnd bridge = limit - (finalEnd - bridge) := by
  obtain ⟨e, he⟩ := hdvd
  have hcQ : ((count : ℕ) : ℚ) ≠ 0 :=
    Nat.cast_ne_zero.mpr (Nat.pos_iff_ne_zero.mp hc.1)
  have hdQ : ((d : ℤ) : ℚ) ≠ 0 := Int.cast_ne_zero.mpr (ne_of_gt hd)
  have hdur : chunkDur limit count = (d : ℚ) := by
    unfold chunkDur
    rw [← hcd]
    push_cast
    exact mul_div_cancel_left₀ _ hcQ
  have hcaf : chunksAlreadyFinal limit count finalEnd bridge = e := by
    unfold chunksAlreadyFinal
    rw [hdur, he]
    push_cast
    rw [mul_div_cancel_left₀ _ hdQ]
    exact round_intCast e
  unfold nextBridge
  rw [if_pos hc, hcaf, hdur]
  have hint : (((count : ℤ) - e : ℤ) : ℚ) * (d : ℚ) =
      ((((count : ℤ) - e) * d : ℤ) : ℚ) := by
    push_cast
    ring
  rw [hint, round_intCast, sub_mul, hcd, he]
  ring

lemma correct_boundary (limit : ℤ) (run : List SessionRec) (k : ℕ)
    (s : SessionRec) (hk : run.get? k = some s)
    (hex : exactStep limit run k s)
    (r t : ℤ) (hr1 : r ≤ s.finalEndMs) (hr2 : r ≤ limit) (ht : 0 ≤ t) :
    correctMs limit r (bridgeAt limit run k) k ≤
      correctMs limit t (bridgeAt limit run (k + 1)) (k + 1) := by
  rw [bridgeAt_succ limit run k s hk]
  rcases hex with hno | ⟨d, hd, hcd, hdvd⟩
  · unfold nextBridge
    rw [if_neg hno]
    unfold correctMs
    push_cast
    linarith
  · by_cases hcond : 0 < s.chunkCount ∧ bridgeAt limit run k < s.finalEndMs
    · rw [nextBridge_exact limit s.chunkCount s.finalEndMs _ hcond d hd hcd hdvd]
      unfold correctMs
      push_cast
      linarith
    · unfold nextBridge
      rw [if_neg hcond]
      unfold correctMs
      push_cast
      linarith

lemma correct_chain (limit : ℤ) (run : List SessionRec)
    (hlim : 0 ≤ limit)
    (hfin : ∀ u ∈ run, 0 ≤ u.finalEndMs)
    (hexact : ∀ (k : ℕ) (u : SessionRec), run.get? k = some u →
      exactStep limit run k u)
    (i : ℕ) (si : SessionRec) (hi : run.get? i = some si)
    (r : ℤ) (hr1 : r ≤ si.finalEndMs) (hr2 : r ≤ limit) :
    ∀ j, i < j → j < run.length → ∀ t : ℤ, 0 ≤ t →
      correctMs limit r (bridgeAt limit run i) i ≤
        correctMs limit t (bridgeAt limit run j) j := by
  intro j hij
  induction j, hij using Nat.le_induction with
  | base =>
    intro _ t ht
    exact correct_boundary limit run i si hi (hexact i si hi) r t hr1 hr2 ht
  | succ j hij ih =>
    intro hj1 t ht
    have hjlt : j < run.length := Nat.lt_of_succ_lt hj1
    have hsj : run.get? j = some (run.get ⟨j, hjlt⟩) := List.get?_eq_get hjlt
    calc correctMs limit r (bridgeAt limit run i) i ≤
        correctMs limit 0 (bridgeAt limit run j) j := ih hjlt 0 le_rfl
      _ ≤ correctMs limit t (bridgeAt limit run (j + 1)) (j + 1) :=
        correct_boundary limit run j _ hsj (hexact j _ hsj) 0 t
          (hfin _ (List.get?_mem hsj)) hlim ht

/-- Claim C2 amended: the corrected offsets are non-decreasing across
sessions `i < j` for results whose end offset does not exceed their
session's last confirmed final end offset (nor the session limit), provided
the chunk arithmetic is exact at every session end — the chunk duration is a
whole number of milliseconds dividing the unconfirmed duration (or nothing
is replayed) — the sessions' final end offsets are non-negative and the
limit is non-negative, and the later result's end offset is non-negative.
The counterexample shows both restrictions are necessary. -/
theorem monotonic_timeline_amended (limit : ℤ) (run : List SessionRec)
    (hlim : 0 ≤ limit)
    (hfin : ∀ u ∈ run, 0 ≤ u.finalEndMs)
    (hexact : ∀ (k : ℕ) (u : SessionRec), run.get? k = some u →
      exactStep limit run k u)
    (i j : ℕ) (hij : i < j)
    (si : SessionRec) (hi : run.get? i = some si)
    (sj : SessionRec) (hj : run.get? j = some sj)
    (r : ℤ) (_hr0 : r ∈ si.resultEnds) (hr1 : r ≤ si.finalEndMs) (hr2 : r ≤ limit)
    (s : ℤ) (_hs0 : s ∈ sj.resultEnds) (hs : 0 ≤ s) :
    correctMs limit r (bridgeAt limit run i) i ≤
      correctMs limit s (bridgeAt limit run j) j := by
  have hjlt : j < run.length := (List.get?_eq_some.mp hj).1
  exact correct_chain limit run hlim hfin hexact i si hi r hr1 hr2 j hij hjlt s hs

/-- Concrete instance of `monotonic_timeline_amended` (the spec's own §8
scenario numbers, with the last final at a whole chunk boundary). -/
theorem monotonic_timeline_amended_witness :
    correctMs 240000 239500
        (bridgeAt 240000 [⟨2400, 239500, [239500]⟩, ⟨2400, 0, [0]⟩] 0) 0 ≤
      correctMs 240000 0
        (bridgeAt 240000 [⟨2400, 239500, [239500]⟩, ⟨2400, 0, [0]⟩] 1) 1 := by
  have hb1 : bridgeAt 240000 [⟨2400, 239500, [239500]⟩, ⟨2400, 0, [0]⟩] 1 = 500 := by
    rw [bridgeAt_succ 240000 [⟨2400, 239500, [239500]⟩, ⟨2400, 0, [0]⟩] 0
      ⟨2400, 239500, [239500]⟩ rfl]
    have hb0 : bridgeAt 240000 [⟨2400, 239500, [239500]⟩, ⟨2400, 0, [0]⟩] 0 = 0 := rfl
    rw [hb0, nextBridge_exact 240000 2400 239500 0 ⟨by norm_num, by norm_num⟩
      100 (by norm_num) (by norm_num) ⟨2395, by norm_num⟩]
    norm_num
  apply monotonic_timeline_amended 240000 [⟨2400, 239500, [239500]⟩, ⟨2400, 0, [0]⟩]
    (by norm_num) (by decide) ?_ 0 1 (by norm_num) ⟨2400, 239500, [239500]⟩ rfl
    ⟨2400, 0, [0]⟩ rfl 239500 (by simp) (by norm_num) (by norm_num) 0 (by simp) le_rfl
  intro k u hk
  match k with
  | 0 =>
    have hu : (⟨2400, 239500, [239500]⟩ : SessionRec) = u := Option.some.inj hk
    subst hu
    refine Or.inr ⟨100, by norm_num, by norm_num, ?_⟩
    have hb0 : bridgeAt 240000 [⟨2400, 239500, [239500]⟩, ⟨2400, 0, [0]⟩] 0 = 0 := rfl
    rw [hb0]
    exact ⟨2395, by norm_num⟩
  | 1 =>
    have hu : (⟨2400, 0, [0]⟩ : SessionRec) = u := Option.some.inj hk
    subst hu
    refine Or.inl ?_
    rintro ⟨-, habs⟩
    rw [hb1] at habs
    exact absurd habs (by norm_num)
  | Nat.succ (Nat.succ k) => simp at hk

end PacsiStt
